import Mathlib

/-!
Verification of the const-cbor encoding engine.

Shallow embedding of the Rust sources:
  src/error.rs           -> `ConstCbor.Error`
  src/value.rs           -> `ConstCbor.Value` and its constructor helpers
  src/encode/mod.rs      -> `encode_header`, `encoded_size`, `encode_value`, `encode`
  src/encode/cursor.rs   -> `ConstCbor.Cursor` and `Cursor.write_byte`

Modelling conventions:
  - `u8`/`u64` values are `Nat` with explicit `% 256` / bounds where the code casts;
  - a Rust `&str` is represented by the list of its UTF-8 bytes (the encoder only
    ever uses `text.len()` and `text.as_bytes()`, both of which are byte-level);
  - an `f64` is represented by its IEEE-754 bit pattern (a `Nat` below `2 ^ 64`),
    since the encoder only ever uses `f.to_bits()`;
  - `encode_header`'s Rust result `(u8, [u8; 8], usize)` — a header byte, a
    zero-padded byte array and the count of meaningful bytes — is modelled as the
    header byte together with the list of exactly the meaningful bytes (only those
    are ever read, both by `encoded_size` and by `encode_value`);
  - the in-place mutation of the output `&mut [u8]` is modelled by explicit state
    passing of a `Cursor` (buffer contents plus position), and `?`-propagation of
    `Result` by the `andThen` combinator, which preserves the mutated state on error
    exactly as the Rust borrow does.
-/

namespace ConstCbor

/-- Errors from src/error.rs: `BufferOverflow` (output buffer too small) and
`InvalidType` (reserved for a decode direction that is not implemented). -/
inductive Error where
  | BufferOverflow
  | InvalidType
deriving DecidableEq, Repr

/-- CBOR value tree from src/value.rs. `Text` carries the UTF-8 bytes of the
string; `Float` carries the IEEE-754 bit pattern of the double. -/
inductive Value where
  | Unsigned : Nat → Value
  | Negative : Nat → Value
  | Bytes : List Nat → Value
  | Text : List Nat → Value
  | Array : List Value → Value
  | Map : List (Value × Value) → Value
  | Tag : Nat → Value → Value
  | Simple : Nat → Value
  | Float : Nat → Value

/-- `Value::null()` from src/value.rs: simple value 22. -/
def Value.null : Value := Value.Simple 22

/-- `Value::bool` from src/value.rs: simple value 21 for true, 20 for false. -/
def Value.bool (value : Bool) : Value := Value.Simple (if value then 21 else 20)

/-- `Value::unsigned` from src/value.rs. -/
def Value.unsigned (value : Nat) : Value := Value.Unsigned value

/-- `Value::negative` from src/value.rs: stores `(-(value + 1)) as u64`.  The Rust
`i64` arithmetic and the cast to `u64` both act modulo `2 ^ 64`, so the stored
magnitude is `(-(value + 1))` reduced modulo `2 ^ 64`. -/
def Value.negative (value : Int) : Value :=
  Value.Negative ((-(value + 1)) % (2 ^ 64 : Int)).toNat

/-- `Value::bytes` from src/value.rs. -/
def Value.bytes (value : List Nat) : Value := Value.Bytes value

/-- `Value::text` from src/value.rs (the string given by its UTF-8 bytes). -/
def Value.text (value : List Nat) : Value := Value.Text value

/-- `Value::array` from src/value.rs. -/
def Value.array (value : List Value) : Value := Value.Array value

/-- `Value::map` from src/value.rs. -/
def Value.map (value : List (Value × Value)) : Value := Value.Map value

/-- `Value::tag` from src/value.rs. -/
def Value.tag (tag : Nat) (item : Value) : Value := Value.Tag tag item

/-- `Value::float` from src/value.rs (the double given by its bit pattern). -/
def Value.float (bits : Nat) : Value := Value.Float bits

/-- CBOR major types from src/encode/mod.rs (`MajorType`). -/
inductive MajorType where
  | Unsigned
  | Negative
  | Bytes
  | Text
  | Array
  | Map
  | Tag
  | Simple
deriving DecidableEq, Repr

/-- The `as u8` discriminant of `MajorType` (its `#[repr(u8)]` value). -/
def MajorType.toU8 : MajorType → Nat
  | .Unsigned => 0
  | .Negative => 1
  | .Bytes => 2
  | .Text => 3
  | .Array => 4
  | .Map => 5
  | .Tag => 6
  | .Simple => 7

/-- The eight big-endian bytes of a `u64`, as produced by the shift-and-cast
sequence in src/encode/mod.rs (both the 8-byte branch of `encode_header` and
`f.to_bits().to_be_bytes()` in the `Float` arm of `encode_value`). -/
def u64_be_bytes (value : Nat) : List Nat :=
  [(value >>> 56) % 256, (value >>> 48) % 256, (value >>> 40) % 256,
   (value >>> 32) % 256, (value >>> 24) % 256, (value >>> 16) % 256,
   (value >>> 8) % 256, value % 256]

/-- `encode_header` from src/encode/mod.rs: the header byte (major type in the
top 3 bits) together with the list of additional big-endian magnitude bytes. -/
def encode_header (major : Nat) (value : Nat) : Nat × List Nat :=
  let major_shift := (major <<< 5) % 256
  if value ≤ 23 then
    (major_shift ||| value, [])
  else if value ≤ 255 then
    (major_shift ||| 24, [value % 256])
  else if value ≤ 65535 then
    (major_shift ||| 25, [(value >>> 8) % 256, value % 256])
  else if value ≤ 4294967295 then
    (major_shift ||| 26,
     [(value >>> 24) % 256, (value >>> 16) % 256, (value >>> 8) % 256, value % 256])
  else
    (major_shift ||| 27, u64_be_bytes value)

mutual

/-- `encoded_size` from src/encode/mod.rs: the exact number of bytes the value
occupies when encoded.  The Rust `while` loops over array elements and map pairs
are rendered as the recursions `encoded_size_list` / `encoded_size_pairs`. -/
def encoded_size : Value → Nat
  | Value.Unsigned n => 1 + (encode_header MajorType.Unsigned.toU8 n).2.length
  | Value.Negative n => 1 + (encode_header MajorType.Negative.toU8 n).2.length
  | Value.Bytes b => 1 + (encode_header MajorType.Bytes.toU8 b.length).2.length + b.length
  | Value.Text t => 1 + (encode_header MajorType.Text.toU8 t.length).2.length + t.length
  | Value.Array items =>
      1 + (encode_header MajorType.Array.toU8 items.length).2.length
        + encoded_size_list items
  | Value.Map pairs =>
      1 + (encode_header MajorType.Map.toU8 pairs.length).2.length
        + encoded_size_pairs pairs
  | Value.Tag tag item =>
      1 + (encode_header MajorType.Tag.toU8 tag).2.length + encoded_size item
  | Value.Simple s => 1 + (encode_header MajorType.Simple.toU8 s).2.length
  | Value.Float _ => 9

/-- The summation loop of `encoded_size` over array elements. -/
def encoded_size_list : List Value → Nat
  | [] => 0
  | v :: rest => encoded_size v + encoded_size_list rest

/-- The summation loop of `encoded_size` over map pairs. -/
def encoded_size_pairs : List (Value × Value) → Nat
  | [] => 0
  | (k, v) :: rest => encoded_size k + encoded_size v + encoded_size_pairs rest

end

/-- The bounded buffer writer from src/encode/cursor.rs: the byte buffer being
written plus the current position. -/
structure Cursor where
  data : List Nat
  pos : Nat
deriving DecidableEq, Repr

/-- `Cursor::new` from src/encode/cursor.rs. -/
def Cursor.new (data : List Nat) : Cursor := { data := data, pos := 0 }

/-- `Cursor::write_byte` from src/encode/cursor.rs: if the position is in
bounds, store the byte there and advance; otherwise signal `BufferOverflow`
leaving the cursor unchanged.  The mutated cursor is returned alongside the
(optional) error so that the partially written buffer is observable, exactly as
it is through the `&mut` borrow in Rust. -/
def Cursor.write_byte (c : Cursor) (byte : Nat) : Cursor × Option Error :=
  if c.pos < c.data.length then
    ({ data := c.data.set c.pos byte, pos := c.pos + 1 }, none)
  else
    (c, some Error.BufferOverflow)

/-- Sequencing of fallible writes: Rust `?`-propagation.  On error the state
reached so far is passed through untouched. -/
def andThen (out : Cursor × Option Error) (f : Cursor → Cursor × Option Error) :
    Cursor × Option Error :=
  match out with
  | (c, none) => f c
  | (c, some e) => (c, some e)

/-- A `for`-loop of `write_byte` calls over a list of bytes, as used for
`extra[0..len]` and for the payloads of `Bytes`/`Text` in `encode_value`. -/
def writeBytes : List Nat → Cursor → Cursor × Option Error
  | [], c => (c, none)
  | b :: rest, c => andThen (c.write_byte b) (writeBytes rest)

mutual

/-- `encode_value` from src/encode/mod.rs: write the header byte, then the
additional magnitude bytes, then the payload (verbatim bytes, or recursive
encodings for `Array`/`Map`/`Tag`).  The `Float` arm writes the fixed header
`(7 << 5) | 27` followed by the eight big-endian bytes of the bit pattern. -/
def encode_value : Value → Cursor → Cursor × Option Error
  | Value.Unsigned n, c =>
      let h := encode_header MajorType.Unsigned.toU8 n
      andThen (c.write_byte h.1) (writeBytes h.2)
  | Value.Negative n, c =>
      let h := encode_header MajorType.Negative.toU8 n
      andThen (c.write_byte h.1) (writeBytes h.2)
  | Value.Bytes bytes, c =>
      let h := encode_header MajorType.Bytes.toU8 bytes.length
      andThen (c.write_byte h.1) (fun c =>
        andThen (writeBytes h.2 c) (writeBytes bytes))
  | Value.Text text, c =>
      let h := encode_header MajorType.Text.toU8 text.length
      andThen (c.write_byte h.1) (fun c =>
        andThen (writeBytes h.2 c) (writeBytes text))
  | Value.Array items, c =>
      let h := encode_header MajorType.Array.toU8 items.length
      andThen (c.write_byte h.1) (fun c =>
        andThen (writeBytes h.2 c) (encode_list items))
  | Value.Map pairs, c =>
      let h := encode_header MajorType.Map.toU8 pairs.length
      andThen (c.write_byte h.1) (fun c =>
        andThen (writeBytes h.2 c) (encode_pairs pairs))
  | Value.Tag tag item, c =>
      let h := encode_header MajorType.Tag.toU8 tag
      andThen (c.write_byte h.1) (fun c =>
        andThen (writeBytes h.2 c) (encode_value item))
  | Value.Simple s, c =>
      let h := encode_header MajorType.Simple.toU8 s
      andThen (c.write_byte h.1) (writeBytes h.2)
  | Value.Float bits, c =>
      andThen (c.write_byte ((MajorType.Simple.toU8 <<< 5) ||| 27))
        (writeBytes (u64_be_bytes bits))

/-- The `for value in *items` loop of the `Array` arm of `encode_value`. -/
def encode_list : List Value → Cursor → Cursor × Option Error
  | [], c => (c, none)
  | v :: rest, c => andThen (encode_value v c) (encode_list rest)

/-- The `for (key, value) in *pairs` loop of the `Map` arm of `encode_value`. -/
def encode_pairs : List (Value × Value) → Cursor → Cursor × Option Error
  | [], c => (c, none)
  | (k, v) :: rest, c =>
      andThen (encode_value k c) (fun c =>
        andThen (encode_value v c) (encode_pairs rest))

end

/-- `encode` from src/encode/mod.rs: run `encode_value` on a fresh cursor over
the buffer; on success return the final position as the byte count.  The final
buffer contents are returned as the second component (in Rust they persist in
the caller's `&mut [u8]`, also when an error is returned). -/
def encode (value : Value) (buf : List Nat) : Except Error Nat × List Nat :=
  let out := encode_value value (Cursor.new buf)
  match out.2 with
  | none => (Except.ok out.1.pos, out.1.data)
  | some e => (Except.error e, out.1.data)

/-- The logical integer denoted by a stored `Negative` magnitude, per the
documented semantics of `Value::Negative` in src/value.rs: "The actual value
is -1 - n, where n is the stored value." -/
def negative_logical_value (n : Nat) : Int := -1 - (n : Int)

/-!
The master specification of a writing step.  `WSpec start out size` says that a
step which was supposed to emit `size` bytes, run from cursor `start` and
producing `out`, (1) preserves the buffer length, (2) never moves the position
backwards, (3) never moves the position past the end of the buffer, (4) leaves
every byte outside the written window `[start.pos, out.pos)` untouched, and
(5) either succeeds having advanced by exactly `size`, or fails with
`BufferOverflow` because the buffer is too short for `size` more bytes.
-/
def WSpec (start : Cursor) (out : Cursor × Option Error) (size : Nat) : Prop :=
  out.1.data.length = start.data.length ∧
  start.pos ≤ out.1.pos ∧
  (start.pos ≤ start.data.length → out.1.pos ≤ start.data.length) ∧
  (∀ i, i < start.pos ∨ out.1.pos ≤ i → out.1.data[i]? = start.data[i]?) ∧
  ((out.2 = none ∧ out.1.pos = start.pos + size) ∨
   (out.2 = some Error.BufferOverflow ∧ start.data.length < start.pos + size))

theorem wspec_write_byte (c : Cursor) (b : Nat) : WSpec c (c.write_byte b) 1 := by
  unfold WSpec Cursor.write_byte
  split
  case isTrue h =>
    refine ⟨by simp, by simp, ?_, ?_, Or.inl ⟨rfl, by simp⟩⟩
    · intro _
      simpa using h
    · intro i hi
      dsimp only at hi
      have hne : c.pos ≠ i := by rcases hi with hi | hi <;> omega
      simpa using List.getElem?_set_ne hne
  case isFalse h =>
    exact ⟨rfl, Nat.le_refl _, fun hp => hp, fun i _ => rfl, Or.inr ⟨rfl, by omega⟩⟩

theorem wspec_andThen {c : Cursor} {out : Cursor × Option Error}
    {f : Cursor → Cursor × Option Error} {s1 s2 : Nat}
    (h1 : WSpec c out s1) (h2 : ∀ c1, WSpec c1 (f c1) s2) :
    WSpec c (andThen out f) (s1 + s2) := by
  obtain ⟨c1, r⟩ := out
  cases r with
  | none =>
    simp only [WSpec] at h1
    obtain ⟨hlen1, hpos1, hbnd1, hfr1, hout1⟩ := h1
    have hpos1' : c1.pos = c.pos + s1 := by
      rcases hout1 with ⟨-, h⟩ | ⟨h, -⟩
      · exact h
      · exact absurd h (by simp)
    obtain ⟨hlen2, hpos2, hbnd2, hfr2, hout2⟩ := h2 c1
    simp only [andThen, WSpec]
    refine ⟨hlen2.trans hlen1, hpos1.trans hpos2, ?_, ?_, ?_⟩
    · intro hp
      have b1 : c1.pos ≤ c1.data.length := by
        have := hbnd1 hp
        omega
      have := hbnd2 b1
      omega
    · intro i hi
      rcases hi with hi | hi
      · have e2 := hfr2 i (Or.inl (Nat.lt_of_lt_of_le hi hpos1))
        have e1 := hfr1 i (Or.inl hi)
        rw [e2, e1]
      · have e2 := hfr2 i (Or.inr hi)
        have e1 := hfr1 i (Or.inr (Nat.le_trans hpos2 hi))
        rw [e2, e1]
    · rcases hout2 with ⟨hnone, hp⟩ | ⟨herr, hlt⟩
      · exact Or.inl ⟨hnone, by omega⟩
      · exact Or.inr ⟨herr, by omega⟩
  | some e =>
    simp only [WSpec] at h1
    obtain ⟨hlen1, hpos1, hbnd1, hfr1, hout1⟩ := h1
    have herr : e = Error.BufferOverflow ∧ c.data.length < c.pos + s1 := by
      rcases hout1 with ⟨h, -⟩ | ⟨h, h'⟩
      · exact absurd h (by simp)
      · exact ⟨by simpa using h, h'⟩
    simp only [andThen, WSpec]
    exact ⟨hlen1, hpos1, hbnd1, hfr1,
      Or.inr ⟨by simp [herr.1], by have := herr.2; omega⟩⟩

theorem wspec_writeBytes (bs : List Nat) (c : Cursor) :
    WSpec c (writeBytes bs c) bs.length := by
  induction bs generalizing c with
  | nil =>
    exact ⟨rfl, Nat.le_refl _, fun hp => hp, fun i _ => rfl, Or.inl ⟨rfl, rfl⟩⟩
  | cons b rest ih =>
    have h := wspec_andThen (wspec_write_byte c b) (fun c1 => ih c1)
    rw [writeBytes]
    simpa [Nat.add_comm] using h

mutual

theorem wspec_encode_value (v : Value) (c : Cursor) :
    WSpec c (encode_value v c) (encoded_size v) := by
  cases v with
  | Unsigned n =>
    simp only [encode_value, encoded_size]
    exact wspec_andThen (wspec_write_byte _ _) (fun c1 => wspec_writeBytes _ _)
  | Negative n =>
    simp only [encode_value, encoded_size]
    exact wspec_andThen (wspec_write_byte _ _) (fun c1 => wspec_writeBytes _ _)
  | Bytes bytes =>
    simp only [encode_value, encoded_size]
    have h := wspec_andThen
      (wspec_write_byte c (encode_header MajorType.Bytes.toU8 bytes.length).1)
      (fun c1 => wspec_andThen
        (wspec_writeBytes (encode_header MajorType.Bytes.toU8 bytes.length).2 c1)
        (fun c2 => wspec_writeBytes bytes c2))
    simpa [Nat.add_assoc] using h
  | Text text =>
    simp only [encode_value, encoded_size]
    have h := wspec_andThen
      (wspec_write_byte c (encode_header MajorType.Text.toU8 text.length).1)
      (fun c1 => wspec_andThen
        (wspec_writeBytes (encode_header MajorType.Text.toU8 text.length).2 c1)
        (fun c2 => wspec_writeBytes text c2))
    simpa [Nat.add_assoc] using h
  | Array items =>
    simp only [encode_value, encoded_size]
    have h := wspec_andThen
      (wspec_write_byte c (encode_header MajorType.Array.toU8 items.length).1)
      (fun c1 => wspec_andThen
        (wspec_writeBytes (encode_header MajorType.Array.toU8 items.length).2 c1)
        (fun c2 => wspec_encode_list items c2))
    simpa [Nat.add_assoc] using h
  | Map pairs =>
    simp only [encode_value, encoded_size]
    have h := wspec_andThen
      (wspec_write_byte c (encode_header MajorType.Map.toU8 pairs.length).1)
      (fun c1 => wspec_andThen
        (wspec_writeBytes (encode_header MajorType.Map.toU8 pairs.length).2 c1)
        (fun c2 => wspec_encode_pairs pairs c2))
    simpa [Nat.add_assoc] using h
  | Tag tag item =>
    simp only [encode_value, encoded_size]
    have h := wspec_andThen
      (wspec_write_byte c (encode_header MajorType.Tag.toU8 tag).1)
      (fun c1 => wspec_andThen
        (wspec_writeBytes (encode_header MajorType.Tag.toU8 tag).2 c1)
        (fun c2 => wspec_encode_value item c2))
    simpa [Nat.add_assoc] using h
  | Simple s =>
    simp only [encode_value, encoded_size]
    exact wspec_andThen (wspec_write_byte _ _) (fun c1 => wspec_writeBytes _ _)
  | Float bits =>
    simp only [encode_value, encoded_size]
    have h := wspec_andThen (wspec_write_byte c ((MajorType.Simple.toU8 <<< 5) ||| 27))
      (fun c1 => wspec_writeBytes (u64_be_bytes bits) c1)
    simpa [u64_be_bytes] using h

theorem wspec_encode_list (vs : List Value) (c : Cursor) :
    WSpec c (encode_list vs c) (encoded_size_list vs) := by
  cases vs with
  | nil =>
    exact ⟨rfl, Nat.le_refl _, fun hp => hp, fun i _ => rfl, Or.inl ⟨rfl, rfl⟩⟩
  | cons v rest =>
    simp only [encode_list, encoded_size_list]
    exact wspec_andThen (wspec_encode_value v c) (fun c1 => wspec_encode_list rest c1)

theorem wspec_encode_pairs (ps : List (Value × Value)) (c : Cursor) :
    WSpec c (encode_pairs ps c) (encoded_size_pairs ps) := by
  cases ps with
  | nil =>
    exact ⟨rfl, Nat.le_refl _, fun hp => hp, fun i _ => rfl, Or.inl ⟨rfl, rfl⟩⟩
  | cons p rest =>
    obtain ⟨k, v⟩ := p
    simp only [encode_pairs, encoded_size_pairs]
    have h := wspec_andThen (wspec_encode_value k c)
      (fun c1 => wspec_andThen (wspec_encode_value v c1)
        (fun c2 => wspec_encode_pairs rest c2))
    simpa [Nat.add_assoc] using h

end

/-!
Arithmetic facts about the header byte, and corollaries of the master
specification at the top-level `encode` entry point.
-/

theorem lor_shift_small :
    ∀ m < 8, ∀ code < 32, (m <<< 5) % 256 ||| code = 32 * m + code := by
  decide

theorem header_byte_fields {m code : Nat} (hm : m < 8) (hc : code < 32) :
    ((m <<< 5) % 256 ||| code) < 256 ∧ ((m <<< 5) % 256 ||| code) >>> 5 = m ∧
    ((m <<< 5) % 256 ||| code) % 32 = code := by
  rw [lor_shift_small m hm code hc, Nat.shiftRight_eq_div_pow]
  refine ⟨by omega, ?_, by omega⟩
  have h32 : (2 : Nat) ^ 5 = 32 := by norm_num
  rw [h32]
  omega

theorem encode_data (v : Value) (buf : List Nat) :
    (encode v buf).2 = (encode_value v (Cursor.new buf)).1.data := by
  unfold encode
  cases h : (encode_value v (Cursor.new buf)).2 <;> simp [h]

theorem encode_ok_of_le (v : Value) (buf : List Nat) (h : encoded_size v ≤ buf.length) :
    (encode v buf).1 = Except.ok (encoded_size v) := by
  obtain ⟨hlen, hpos, hbnd, hfr, hout⟩ := wspec_encode_value v (Cursor.new buf)
  rcases hout with ⟨hnone, hp⟩ | ⟨herr, hlt⟩
  · have hp0 : (Cursor.new buf).pos = 0 := rfl
    have hp' : (encode_value v (Cursor.new buf)).1.pos = encoded_size v := by omega
    simp [encode, hnone, hp']
  · have hl0 : (Cursor.new buf).data.length = buf.length := rfl
    have hp0 : (Cursor.new buf).pos = 0 := rfl
    omega

theorem encode_err_of_lt (v : Value) (buf : List Nat) (h : buf.length < encoded_size v) :
    (encode v buf).1 = Except.error Error.BufferOverflow := by
  obtain ⟨hlen, hpos, hbnd, hfr, hout⟩ := wspec_encode_value v (Cursor.new buf)
  rcases hout with ⟨hnone, hp⟩ | ⟨herr, hlt⟩
  · exfalso
    simp only [Cursor.new] at hp hbnd
    have := hbnd (by omega)
    omega
  · simp [encode, herr]

theorem writeBytes_content (bs : List Nat) (c : Cursor)
    (h : c.pos + bs.length ≤ c.data.length) :
    ∀ j, j < bs.length → (writeBytes bs c).1.data[c.pos + j]? = bs[j]? := by
  induction bs generalizing c with
  | nil =>
    intro j hj
    exact absurd hj (by simp)
  | cons b rest ih =>
    have hpos : c.pos < c.data.length := by
      simp only [List.length_cons] at h
      omega
    have hw : c.write_byte b = (Cursor.mk (c.data.set c.pos b) (c.pos + 1), none) := by
      simp [Cursor.write_byte, hpos]
    have hred : writeBytes (b :: rest) c
        = writeBytes rest (Cursor.mk (c.data.set c.pos b) (c.pos + 1)) := by
      rw [writeBytes, hw, andThen]
    intro j hj
    rw [hred]
    match j with
    | 0 =>
      have hfr := (wspec_writeBytes rest (Cursor.mk (c.data.set c.pos b) (c.pos + 1))).2.2.2.1
      have hlt : c.pos < (Cursor.mk (c.data.set c.pos b) (c.pos + 1)).pos := by simp
      have heq := hfr c.pos (Or.inl hlt)
      simp only at heq
      have hset : (c.data.set c.pos b)[c.pos]? = some b :=
        List.getElem?_set_eq_of_lt b hpos
      simpa [hset] using heq
    | j + 1 =>
      have hlen : (Cursor.mk (c.data.set c.pos b) (c.pos + 1)).pos + rest.length
          ≤ (Cursor.mk (c.data.set c.pos b) (c.pos + 1)).data.length := by
        simp only [List.length_cons] at h
        simp
        omega
      have heq := ih (Cursor.mk (c.data.set c.pos b) (c.pos + 1)) hlen j (by simpa using hj)
      simp only at heq
      have hidx : c.pos + (j + 1) = c.pos + 1 + j := by omega
      rw [hidx]
      simpa using heq

/-- Claim C1: for every value tree, encoding into a buffer of exactly
`encoded_size` bytes succeeds returning exactly `encoded_size` bytes written,
and encoding into a buffer one byte shorter fails with the buffer-overflow
error — the size estimator and the encoder stay in lockstep. -/
theorem size_encode_lockstep (v : Value) (buf : List Nat) :
    (buf.length = encoded_size v → (encode v buf).1 = Except.ok (encoded_size v)) ∧
    (buf.length + 1 = encoded_size v → (encode v buf).1 = Except.error Error.BufferOverflow) := by
  constructor
  · intro h
    exact encode_ok_of_le v buf (by omega)
  · intro h
    exact encode_err_of_lt v buf (by omega)

theorem size_encode_lockstep_w :
    (encode (Value.Unsigned 42) [0, 0]).1 = Except.ok (encoded_size (Value.Unsigned 42)) ∧
    (encode (Value.Unsigned 42) [0]).1 = Except.error Error.BufferOverflow :=
  ⟨(size_encode_lockstep (Value.Unsigned 42) [0, 0]).1 (by decide),
   (size_encode_lockstep (Value.Unsigned 42) [0]).2 (by decide)⟩

/-- Claim C2: for every 3-bit major type and 64-bit magnitude, the header is a
single byte carrying the major type in its top 3 bits, and the count of extra
big-endian magnitude bytes follows the selection rule (0 with the value inline
in the low 5 bits for ≤ 23; 1 with code 24 for ≤ 255; 2 with code 25 for
≤ 65535; 4 with code 26 for ≤ 4294967295; else 8 with code 27), the extra
bytes reassembling big-endian to the magnitude. -/
theorem encode_header_selection (m v : Nat) (hm : m < 8) (hv : v < 2 ^ 64) :
    (encode_header m v).1 < 256 ∧
    (encode_header m v).1 >>> 5 = m ∧
    (v ≤ 23 → (encode_header m v).2.length = 0 ∧ (encode_header m v).1 % 32 = v) ∧
    (23 < v → v ≤ 255 → (encode_header m v).2.length = 1 ∧ (encode_header m v).1 % 32 = 24) ∧
    (255 < v → v ≤ 65535 → (encode_header m v).2.length = 2 ∧ (encode_header m v).1 % 32 = 25) ∧
    (65535 < v → v ≤ 4294967295 → (encode_header m v).2.length = 4 ∧ (encode_header m v).1 % 32 = 26) ∧
    (4294967295 < v → (encode_header m v).2.length = 8 ∧ (encode_header m v).1 % 32 = 27) ∧
    (23 < v → (encode_header m v).2.foldl (fun a b => a * 256 + b) 0 = v) := by
  simp only [encode_header, u64_be_bytes]
  split_ifs with h1 h2 h3 h4
  · obtain ⟨f1, f2, f3⟩ := header_byte_fields hm (show v < 32 by omega)
    exact ⟨f1, f2, fun _ => ⟨rfl, f3⟩, fun h => absurd h (by omega),
      fun h => absurd h (by omega), fun h => absurd h (by omega),
      fun h => absurd h (by omega), fun h => absurd h (by omega)⟩
  · obtain ⟨f1, f2, f3⟩ := header_byte_fields hm (show (24 : Nat) < 32 by omega)
    refine ⟨f1, f2, fun h => absurd h h1, fun _ _ => ⟨rfl, f3⟩,
      fun h => absurd h (by omega), fun h => absurd h (by omega),
      fun h => absurd h (by omega), fun _ => ?_⟩
    simp [List.foldl]
    omega
  · obtain ⟨f1, f2, f3⟩ := header_byte_fields hm (show (25 : Nat) < 32 by omega)
    refine ⟨f1, f2, fun h => absurd h h1, fun _ h => absurd h h2,
      fun _ _ => ⟨rfl, f3⟩, fun h => absurd h (by omega),
      fun h => absurd h (by omega), fun _ => ?_⟩
    simp [List.foldl, Nat.shiftRight_eq_div_pow]
    omega
  · obtain ⟨f1, f2, f3⟩ := header_byte_fields hm (show (26 : Nat) < 32 by omega)
    refine ⟨f1, f2, fun h => absurd h h1, fun _ h => absurd h h2,
      fun _ h => absurd h h3, fun _ _ => ⟨rfl, f3⟩,
      fun h => absurd h (by omega), fun _ => ?_⟩
    simp [List.foldl, Nat.shiftRight_eq_div_pow]
    omega
  · obtain ⟨f1, f2, f3⟩ := header_byte_fields hm (show (27 : Nat) < 32 by omega)
    refine ⟨f1, f2, fun h => absurd h h1, fun _ h => absurd h h2,
      fun _ h => absurd h h3, fun _ h => absurd h h4,
      fun _ => ⟨rfl, f3⟩, fun _ => ?_⟩
    simp [List.foldl, Nat.shiftRight_eq_div_pow]
    omega

theorem encode_header_selection_w :
    (encode_header 0 256).2.length = 2 ∧ (encode_header 0 256).1 % 32 = 25 :=
  (encode_header_selection 0 256 (by norm_num) (by norm_num)).2.2.2.2.1
    (by norm_num) (by norm_num)

/-- Claim C3: a top-level `encode` call either succeeds having written the
whole encoding (never a partial byte count), or propagates the buffer-overflow
error from the failing single-byte write; no other error — in particular never
`InvalidType` — is produced. -/
theorem encode_error_taxonomy (v : Value) (buf : List Nat) :
    (encode v buf).1 = Except.ok (encoded_size v) ∨
    (encode v buf).1 = Except.error Error.BufferOverflow := by
  rcases Nat.lt_or_ge buf.length (encoded_size v) with h | h
  · exact Or.inr (encode_err_of_lt v buf h)
  · exact Or.inl (encode_ok_of_le v buf h)

/-- Claim C4: `write_byte` stores the byte at the current position, advances
the position by exactly one and succeeds when the position is in bounds, and
otherwise fails with the buffer-too-small condition leaving cursor and buffer
untouched. -/
theorem write_byte_contract (c : Cursor) (b : Nat) :
    (c.pos < c.data.length →
       (c.write_byte b).2 = none ∧
       (c.write_byte b).1.pos = c.pos + 1 ∧
       (c.write_byte b).1.data[c.pos]? = some b ∧
       (c.write_byte b).1.data.length = c.data.length ∧
       (∀ i, i ≠ c.pos → (c.write_byte b).1.data[i]? = c.data[i]?)) ∧
    (c.data.length ≤ c.pos → c.write_byte b = (c, some Error.BufferOverflow)) := by
  constructor
  · intro h
    have hif : c.write_byte b = (Cursor.mk (c.data.set c.pos b) (c.pos + 1), none) := by
      simp [Cursor.write_byte, h]
    refine ⟨by simp [hif], by simp [hif], ?_, by simp [hif], ?_⟩
    · rw [hif]
      exact List.getElem?_set_eq_of_lt b h
    · intro i hi
      rw [hif]
      simpa using List.getElem?_set_ne (fun he => hi he.symm)
  · intro h
    simp [Cursor.write_byte, Nat.not_lt.mpr h]

theorem write_byte_contract_w :
    ((Cursor.mk [0, 0] 0).write_byte 5).1.data[0]? = some 5 ∧
    (Cursor.mk [9] 1).write_byte 5 = (Cursor.mk [9] 1, some Error.BufferOverflow) :=
  ⟨((write_byte_contract (Cursor.mk [0, 0] 0) 5).1 (by decide)).2.2.1,
   (write_byte_contract (Cursor.mk [9] 1) 5).2 (by decide)⟩

/-- Claim C5: `encoded_size` is a total pure function on every finite value
tree (witnessed by its acceptance as a terminating structural recursion into
`Nat`, with no failure path); every encoding takes at least its header byte,
so the result is a positive — in particular non-negative — integer. -/
theorem encoded_size_total_pos (v : Value) : 1 ≤ encoded_size v := by
  cases v <;> simp [encoded_size] <;> omega

/-- Claim C6: encoding a `Float` into a sufficiently large buffer writes
exactly 9 bytes — the fixed header byte `0xFB` followed by the eight
big-endian bytes of the IEEE-754 bit pattern — and `encoded_size` of any
`Float` is 9. -/
theorem float_encoding_nine_bytes (bits : Nat) (buf : List Nat)
    (hbits : bits < 2 ^ 64) (h9 : 9 ≤ buf.length) :
    encoded_size (Value.Float bits) = 9 ∧
    (encode (Value.Float bits) buf).1 = Except.ok 9 ∧
    (encode (Value.Float bits) buf).2[0]? = some 0xFB ∧
    (∀ j, j < 8 → (encode (Value.Float bits) buf).2[1 + j]? = (u64_be_bytes bits)[j]?) := by
  clear hbits
  have hbuf0 : 0 < buf.length := by omega
  have hdr : ((MajorType.Simple.toU8 <<< 5) ||| 27 : Nat) = 251 := by decide
  have hw : (Cursor.new buf).write_byte 251
      = (Cursor.mk (buf.set 0 251) 1, none) := by
    simp [Cursor.write_byte, Cursor.new, hbuf0]
  have hev : encode_value (Value.Float bits) (Cursor.new buf)
      = writeBytes (u64_be_bytes bits) (Cursor.mk (buf.set 0 251) 1) := by
    rw [encode_value, hdr, hw, andThen]
  have hlen8 : (u64_be_bytes bits).length = 8 := by simp [u64_be_bytes]
  have hdata := encode_data (Value.Float bits) buf
  rw [hev] at hdata
  have hroom : (Cursor.mk (buf.set 0 251) 1).pos + (u64_be_bytes bits).length
      ≤ (Cursor.mk (buf.set 0 251) 1).data.length := by
    simp [hlen8]
    omega
  refine ⟨rfl, encode_ok_of_le (Value.Float bits) buf (by simpa [encoded_size] using h9), ?_, ?_⟩
  · have hfr := (wspec_writeBytes (u64_be_bytes bits) (Cursor.mk (buf.set 0 251) 1)).2.2.2.1
    have heq := hfr 0 (Or.inl (by simp))
    simp only at heq
    rw [hdata, heq]
    simpa using List.getElem?_set_eq_of_lt 251 hbuf0
  · intro j hj
    have hcont := writeBytes_content (u64_be_bytes bits) (Cursor.mk (buf.set 0 251) 1)
      hroom j (by omega)
    simp only at hcont
    rw [hdata, hcont]

theorem float_encoding_nine_bytes_w :
    (encode (Value.Float (2 ^ 63)) (List.replicate 9 0)).1 = Except.ok 9 :=
  (float_encoding_nine_bytes (2 ^ 63) (List.replicate 9 0) (by norm_num) (by simp)).2.1

/-- Claim C7: encoding the array of unsigned integers 1 and 2 into a
sufficiently large buffer produces exactly the three bytes `0x82 0x01 0x02`,
and encoding a one-pair map writes the header byte `0xA1` immediately followed
by the encoding of the key and then the encoding of the value. -/
theorem recursive_composition :
    (∀ buf : List Nat, 3 ≤ buf.length →
       (encode (Value.Array [Value.Unsigned 1, Value.Unsigned 2]) buf).1 = Except.ok 3 ∧
       (encode (Value.Array [Value.Unsigned 1, Value.Unsigned 2]) buf).2[0]? = some 0x82 ∧
       (encode (Value.Array [Value.Unsigned 1, Value.Unsigned 2]) buf).2[1]? = some 0x01 ∧
       (encode (Value.Array [Value.Unsigned 1, Value.Unsigned 2]) buf).2[2]? = some 0x02) ∧
    (∀ (k v : Value) (c : Cursor),
       encode_value (Value.Map [(k, v)]) c
         = andThen (c.write_byte 0xA1) (fun c1 =>
             andThen (encode_value k c1) (fun c2 => encode_value v c2))) := by
  constructor
  · intro buf hlen
    have h0 : 0 < buf.length := by omega
    have h1 : 1 < buf.length := by omega
    have h2 : 2 < buf.length := by omega
    have hsize : encoded_size (Value.Array [Value.Unsigned 1, Value.Unsigned 2]) = 3 := by decide
    refine ⟨by rw [encode_ok_of_le _ _ (by omega), hsize], ?_, ?_, ?_⟩ <;>
      · rw [encode_data]
        simp [encode_value, encode_list, writeBytes, andThen, encode_header,
          MajorType.toU8, Cursor.new, Cursor.write_byte, h0, h1, h2,
          List.getElem?_set_ne, List.getElem?_set_eq_of_lt]
  · intro k v c
    simp [encode_value, encode_pairs, writeBytes, andThen, encode_header,
      MajorType.toU8]
    rcases h1 : c.write_byte 161 with ⟨c1, _ | e1⟩ <;> simp [h1]
    rcases h2 : encode_value k c1 with ⟨c2, _ | e2⟩ <;> simp [h2]
    rcases h3 : encode_value v c2 with ⟨c3, _ | e3⟩ <;> simp [h3]

theorem recursive_composition_w :
    (encode (Value.Array [Value.Unsigned 1, Value.Unsigned 2]) [0, 0, 0]).1 = Except.ok 3 :=
  (recursive_composition.1 [0, 0, 0] (by decide)).1

/-- Claim C8: `Value::negative(-10)` stores magnitude 9, and its encoding is
the single header byte `0x29` (major type 1 with inline value 9). -/
theorem negative_ten_encoding :
    Value.negative (-10) = Value.Negative 9 ∧
    encoded_size (Value.negative (-10)) = 1 ∧
    encode (Value.negative (-10)) [0] = (Except.ok 1, [0x29]) :=
  ⟨rfl, rfl, rfl⟩

/-- Claim C9: `encode` mutates only the buffer prefix it actually wrote —
whether it returns a count or an error, every byte at an index at or past the
writer's final position (which equals the returned count on success) keeps the
value it had before the call. -/
theorem encode_frame_property (v : Value) (buf : List Nat) :
    (∀ i, (encode_value v (Cursor.new buf)).1.pos ≤ i →
       (encode v buf).2[i]? = buf[i]?) ∧
    (∀ n, (encode v buf).1 = Except.ok n →
       n = (encode_value v (Cursor.new buf)).1.pos) := by
  obtain ⟨hlen, hpos, hbnd, hfr, hout⟩ := wspec_encode_value v (Cursor.new buf)
  constructor
  · intro i hi
    rw [encode_data v buf]
    exact hfr i (Or.inr hi)
  · intro n hn
    rcases hout with ⟨hnone, hp⟩ | ⟨herr, hlt⟩
    · simp [encode, hnone] at hn
      omega
    · simp [encode, herr] at hn

theorem encode_frame_property_w :
    (encode (Value.Unsigned 42) [7, 7, 7]).2[2]? = [7, 7, 7][2]? :=
  (encode_frame_property (Value.Unsigned 42) [7, 7, 7]).1 2 (by decide)

/-- Claim C10: `Value::negative(v)` stores `(-(v + 1))` reduced modulo
`2 ^ 64`; for negative `v` this is the correct CBOR magnitude `-1 - v`, while
for non-negative `v` it wraps around — `Value::negative(0)` stores magnitude
`2 ^ 64 - 1`, whose logical value is `-2 ^ 64`, not 0. -/
theorem negative_wrap_semantics (v : Int) :
    (v < 0 → -(2 ^ 63) ≤ v → Value.negative v = Value.Negative ((-1 - v).toNat)) ∧
    (0 ≤ v → v < 2 ^ 63 → Value.negative v = Value.Negative (2 ^ 64 - 1 - v.toNat)) ∧
    Value.negative 0 = Value.Negative (2 ^ 64 - 1) ∧
    negative_logical_value (2 ^ 64 - 1) = -(2 ^ 64) := by
  refine ⟨?_, ?_, ?_, by decide⟩
  · intro h1 h2
    simp only [Value.negative, Value.Negative.injEq]
    omega
  · intro h1 h2
    simp only [Value.negative, Value.Negative.injEq]
    omega
  · simp only [Value.negative, Value.Negative.injEq]
    decide

theorem negative_wrap_semantics_w :
    Value.negative (-10) = Value.Negative ((-1 - (-10 : Int)).toNat) ∧
    Value.negative 5 = Value.Negative (2 ^ 64 - 1 - (5 : Int).toNat) :=
  ⟨(negative_wrap_semantics (-10)).1 (by norm_num) (by norm_num),
   (negative_wrap_semantics 5).2.1 (by norm_num) (by norm_num)⟩

end ConstCbor
